import Mathlib

/-
  Verification development for the REST API validator (Go repository
  rest-v2-mcp).  The Go source is shallowly embedded: each Go function is
  translated into a Lean definition over an explicit JSON-like value type.
  Go strings are Lean strings; the operations of Go's strings package are
  re-implemented over the underlying character lists so that all
  definitions are executable by kernel reduction.  Go's
  map[string]interface{} is modelled as an association list
  List (String × JValue); Go map iteration order (which is unspecified) is
  the list order of the association list, and a reordering of the list
  models a different iteration order over the same map.  The Go error
  channel of Apply (its second return value) is modelled as Option String.
-/

namespace RestV2

/-! ## String operations (model of Go package strings) -/

/-- Model of strings.Split s "/": split at every slash, keeping empty parts. -/
def segSplit : List Char → List (List Char)
  | [] => [[]]
  | c :: rest =>
    if c = '/' then [] :: segSplit rest
    else match segSplit rest with
      | [] => [[c]]
      | seg :: segs => (c :: seg) :: segs

/-- Split a path string into its slash-separated segments
    (models strings.Split(s, "/")). -/
def strSegments (s : String) : List String :=
  (segSplit s.data).map String.mk

/-- Does the first character list start with the second one? -/
def listStartsWith : List Char → List Char → Bool
  | _, [] => true
  | [], _ :: _ => false
  | c :: cs, p :: ps => (c = p) && listStartsWith cs ps

/-- Does the second character list occur inside the first one?
    (contiguous substring occurrence). -/
def listContainsSub : List Char → List Char → Bool
  | [], sub => listStartsWith [] sub
  | c :: cs, sub => listStartsWith (c :: cs) sub || listContainsSub cs sub

/-- Model of strings.HasPrefix. -/
def strStartsWith (s pre : String) : Bool :=
  listStartsWith s.data pre.data

/-- Model of strings.HasSuffix. -/
def strEndsWith (s suf : String) : Bool :=
  listStartsWith s.data.reverse suf.data.reverse

/-- Model of strings.Contains (for a non-empty needle). -/
def strContainsSub (s sub : String) : Bool :=
  listContainsSub s.data sub.data

/-- Model of strings.ToLower (ASCII inputs only are ever passed). -/
def strToLower (s : String) : String := ⟨s.data.map Char.toLower⟩

/-- Model of strings.ToUpper (ASCII inputs only are ever passed). -/
def strToUpper (s : String) : String := ⟨s.data.map Char.toUpper⟩

/-- Model of the Go slice expression segment[1 : len(segment)-1]:
    the string without its first and last character. -/
def innerName (s : String) : String := ⟨s.data.drop 1 |>.dropLast⟩

/-! ## The parsed-specification value model -/

/-- A decoded structured-text value, the model of Go's interface{} as
    produced by yaml.Unmarshal into nested maps/slices/scalars. -/
inductive JValue where
  | str (s : String)
  | num (n : Int)
  | bool (b : Bool)
  | null
  | arr (elems : List JValue)
  | obj (entries : List (String × JValue))

/-- Go map indexing m[k] over the association-list model: the value of the
    first entry with the given key (Go maps have unique keys). -/
def jlookup : List (String × JValue) → String → Option JValue
  | [], _ => none
  | (k, v) :: rest, key => if k = key then some v else jlookup rest key

/-- Model of the Go type assertion v.(map[string]interface{}) applied to a
    possibly-absent value: succeeds exactly on an object. -/
def asObj : Option JValue → Option (List (String × JValue))
  | some (.obj entries) => some entries
  | _ => none

/-- Model of the Go type assertion v.(string). -/
def asStr : Option JValue → Option String
  | some (.str s) => some s
  | _ => none

/-- A parsed API specification handed to Apply: Go's map[string]interface{}
    including the possibility of a nil map (`none`). -/
abbrev Spec := Option (List (String × JValue))

/-! ## Issues and Results -/

/-- One reported convention violation.  The Go code builds these as
    map[string]interface{} with a subset of these keys; absent keys are
    `none` here. -/
structure Issue where
  path : Option String := none
  method : Option String := none
  segment : Option String := none
  schema : Option String := none
  field : Option String := none
  message : String
deriving DecidableEq, Repr

/-- The per-rule result map built by every Apply implementation. -/
structure Result where
  status : String
  message : Option String := none
  issues : List Issue := []
deriving DecidableEq, Repr

/-- Result for a nil spec (shared by every rule). -/
def invalidSpecResult : Result :=
  { status := "error", message := some "invalid API spec" }

/-- Result for a spec without a paths mapping (shared by every rule). -/
def noPathsResult : Result :=
  { status := "error", message := some "API spec does not have paths" }

/-- The final status/issues packaging shared by every rule body. -/
def finishResult (issues : List Issue) : Result :=
  if issues.length > 0 then { status := "failed", issues := issues }
  else { status := "passed" }

/-! ## Structural rule: solace_rest_rules -/

/-- SolaceRestRules.checkMethodPathConsistency. -/
def checkMethodPathConsistency (path method : String) : Option Issue :=
  let method := strToLower method
  let endsWithID := strContainsSub path "/\x7b" && strEndsWith path "\x7d"
  if method = "get" then
    none
  else if method = "post" then
    if endsWithID then
      some { path := some path, method := some method,
             message := "POST should be used for collection paths, not for specific resources" }
    else none
  else if method = "put" || method = "patch" || method = "delete" then
    if !endsWithID then
      some { path := some path, method := some method,
             message := strToUpper method ++ " should be used for specific resources, not for collections" }
    else none
  else none

/-- The inner loop of SolaceRestRules.Apply over one path item's
    method entries. -/
def restRulesMethodLoop (path : String) (pathItem : List (String × JValue))
    (issues : List Issue) : List Issue :=
  pathItem.foldl (fun issues entry =>
    if entry.1 = "parameters" || entry.1 = "summary" || entry.1 = "description" then
      issues
    else
      match asObj (some entry.2) with
      | none => issues
      | some _ =>
        match checkMethodPathConsistency path entry.1 with
        | some issue => issues ++ [issue]
        | none => issues) issues

/-- SolaceRestRules.Apply.  The second component is the Go error return. -/
def solaceRestRulesApply (spec : Spec) : Result × Option String :=
  match spec with
  | none => (invalidSpecResult, none)
  | some spec =>
    match asObj (jlookup spec "paths") with
    | none => (noPathsResult, none)
    | some paths =>
      let issues := paths.foldl (fun issues entry =>
        match asObj (some entry.2) with
        | none => issues
        | some pathItem => restRulesMethodLoop entry.1 pathItem issues) []
      (finishResult issues, none)

/-! ## Structural rule: solace_singular_user_resources -/

/-- SolaceSingularUserResourcesRule.Apply. -/
def solaceSingularUserResourcesApply (spec : Spec) : Result × Option String :=
  match spec with
  | none => (invalidSpecResult, none)
  | some spec =>
    match asObj (jlookup spec "paths") with
    | none => (noPathsResult, none)
    | some paths =>
      let issues := paths.foldl (fun issues entry =>
        if strContainsSub entry.1 "/users/" && !strContainsSub entry.1 "/me/" then
          issues ++ [{ path := some entry.1,
                       message := "User-specific resources should use /me/ instead of /users/\x7bid\x7d" }]
        else issues) []
      (finishResult issues, none)

/-! ## Structural rule: solace_custom_actions -/

/-- SolaceCustomActionsRule.Apply. -/
def solaceCustomActionsApply (spec : Spec) : Result × Option String :=
  match spec with
  | none => (invalidSpecResult, none)
  | some spec =>
    match asObj (jlookup spec "paths") with
    | none => (noPathsResult, none)
    | some paths =>
      let issues := paths.foldl (fun issues entry =>
        match asObj (some entry.2) with
        | none => issues
        | some pathItem =>
          if strContainsSub entry.1 "/actions/" then
            match jlookup pathItem "post" with
            | some _ => issues
            | none => issues ++ [{ path := some entry.1,
                                   message := "Custom actions should use POST method" }]
          else issues) []
      (finishResult issues, none)

/-! ## Declarative (JSON-defined) rules -/

/-- One validation condition of a JSON rule.  Fields the JSON omits take
    Go's zero value "". -/
structure Condition where
  type : String
  pattern : String := ""
  path : String := ""
  method : String := ""
  field : String := ""
  format : String := ""
  message : String
deriving DecidableEq, Repr

/-- A JSON-defined rule. -/
structure JSONRule where
  ruleName : String
  ruleDescription : String
  enabled : Bool
  conditions : List Condition
deriving DecidableEq, Repr

/-- The compiled-regular-expression matcher is an external collaborator
    (Go package regexp); it is modelled as a function from pattern and
    subject to a Boolean (MatchString, unanchored). -/
abbrev Matcher := String → String → Bool

/-- The resource_naming inner loop over one path's segments: emit an issue
    for the first non-empty segment failing the pattern, then break. -/
def resourceNamingSegLoop (matchFn : Matcher) (pattern message path : String) :
    List String → List Issue
  | [] => []
  | segment :: rest =>
    if segment = "" then resourceNamingSegLoop matchFn pattern message path rest
    else if !(matchFn pattern segment) then
      [{ path := some path, segment := some segment, message := message }]
    else resourceNamingSegLoop matchFn pattern message path rest

/-- The schema_field scan over the schema mapping: Go's fieldFound loop
    with its break.  Returns the issues the loop appended and the final
    value of fieldFound. -/
def schemaFieldScan (field format message : String) :
    List (String × JValue) → List Issue × Bool
  | [] => ([], false)
  | (schemaName, schemaObj) :: rest =>
    match asObj (some schemaObj) with
    | none => schemaFieldScan field format message rest
    | some schema =>
      match asObj (jlookup schema "properties") with
      | none => schemaFieldScan field format message rest
      | some properties =>
        match jlookup properties field with
        | none => schemaFieldScan field format message rest
        | some fieldVal =>
          if format != "" then
            match asObj (some fieldVal) with
            | none => schemaFieldScan field format message rest
            | some fieldObj =>
              match asStr (jlookup fieldObj "format") with
              | some f =>
                if f != format then
                  ([{ schema := some schemaName, field := some field,
                      message := message ++ " (format should be " ++ format ++ ")" }], true)
                else ([], true)
              | none =>
                ([{ schema := some schemaName, field := some field,
                    message := message ++ " (format should be " ++ format ++ ")" }], true)
          else ([], true)

/-- The issue emitted when no schema structure is found. -/
def noSchemaIssue (field : String) : Issue :=
  { field := some field, message := "No schema definitions found in API spec" }

/-- The schema_field branch of JSONRule.Apply: the nested type assertions
    locating the schema mapping, then the scan, then the not-found issue. -/
def schemaFieldIssues (spec : List (String × JValue)) (c : Condition) : List Issue :=
  match asObj (jlookup spec "components") with
  | none =>
    match asObj (jlookup spec "definitions") with
    | none => [noSchemaIssue c.field]
    | some schemas => schemaFieldFinish c schemas
  | some components =>
    match asObj (jlookup components "schemas") with
    | none => [noSchemaIssue c.field]
    | some schemas => schemaFieldFinish c schemas
where
  /-- The scan over a located schema mapping plus the trailing
      fieldFound check. -/
  schemaFieldFinish (c : Condition) (schemas : List (String × JValue)) : List Issue :=
    let scan := schemaFieldScan c.field c.format c.message schemas
    scan.1 ++ (if !scan.2 then [{ field := some c.field, message := c.message }] else [])

/-- The issues one condition contributes in JSONRule.Apply (the body of the
    per-condition switch), given the paths mapping already extracted. -/
def condIssues (matchFn : Matcher) (spec paths : List (String × JValue))
    (c : Condition) : List Issue :=
  if c.type = "path_pattern" then
    paths.foldl (fun issues entry =>
      if !(matchFn c.pattern entry.1) then
        issues ++ [{ path := some entry.1, message := c.message }]
      else issues) []
  else if c.type = "method_check" then
    match asObj (jlookup paths c.path) with
    | none => []
    | some pathObj =>
      match jlookup pathObj (strToLower c.method) with
      | some _ => []
      | none => [{ path := some c.path, message := c.message }]
  else if c.type = "parameter_check" then
    match asObj (jlookup paths c.path) with
    | none => []
    | some pathObj =>
      match jlookup pathObj "parameters" with
      | some _ => []
      | none => [{ path := some c.path, message := c.message }]
  else if c.type = "resource_naming" then
    paths.foldl (fun issues entry =>
      issues ++ resourceNamingSegLoop matchFn c.pattern c.message entry.1
        (strSegments entry.1)) []
  else if c.type = "schema_field" then
    schemaFieldIssues spec c
  else []

/-- JSONRule.Apply.  The second component is the Go error return. -/
def jsonRuleApply (matchFn : Matcher) (r : JSONRule) (spec : Spec) :
    Result × Option String :=
  if !r.enabled then
    ({ status := "skipped", message := some "Rule is disabled" }, none)
  else
    match spec with
    | none => (invalidSpecResult, none)
    | some spec =>
      match asObj (jlookup spec "paths") with
      | none => (noPathsResult, none)
      | some paths =>
        let issues := r.conditions.foldl (fun issues c =>
          issues ++ condIssues matchFn spec paths c) []
        (finishResult issues, none)

/-! ## Load-time validation of JSON rules -/

/-- Whether a pattern string compiles as a regular expression is decided by
    the external regexp collaborator, modelled as a predicate. -/
abbrev RegexOk := String → Bool

/-- The per-condition loop of JSONRule.validate, carrying the loop index
    used in the error messages.  Returns the first error, or none. -/
def validateConditions (regexOk : RegexOk) : Nat → List Condition → Option String
  | _, [] => none
  | i, c :: rest =>
    if c.type = "" then some ("condition " ++ toString i ++ ": type is required")
    else if c.message = "" then some ("condition " ++ toString i ++ ": message is required")
    else if c.type = "path_pattern" then
      if c.pattern = "" then
        some ("condition " ++ toString i ++ ": pattern is required for path_pattern")
      else if !(regexOk c.pattern) then
        some ("condition " ++ toString i ++ ": invalid regex pattern")
      else validateConditions regexOk (i + 1) rest
    else if c.type = "method_check" then
      if c.path = "" then
        some ("condition " ++ toString i ++ ": path is required for method_check")
      else if c.method = "" then
        some ("condition " ++ toString i ++ ": method is required for method_check")
      else validateConditions regexOk (i + 1) rest
    else if c.type = "parameter_check" then
      if c.path = "" then
        some ("condition " ++ toString i ++ ": path is required for parameter_check")
      else validateConditions regexOk (i + 1) rest
    else if c.type = "resource_naming" then
      if c.pattern = "" then
        some ("condition " ++ toString i ++ ": pattern is required for resource_naming")
      else if !(regexOk c.pattern) then
        some ("condition " ++ toString i ++ ": invalid regex pattern")
      else validateConditions regexOk (i + 1) rest
    else if c.type = "schema_field" then
      if c.field = "" then
        some ("condition " ++ toString i ++ ": field is required for schema_field")
      else validateConditions regexOk (i + 1) rest
    else some ("condition " ++ toString i ++ ": unknown type: " ++ c.type)

/-- JSONRule.validate: the load-time shape validation.  Returns the first
    error, or none when the rule is well-formed. -/
def jsonRuleValidate (regexOk : RegexOk) (r : JSONRule) : Option String :=
  if r.ruleName = "" then some "rule name is required"
  else if r.ruleDescription = "" then some "rule description is required"
  else if r.conditions.length = 0 then some "at least one condition is required"
  else validateConditions regexOk 0 r.conditions

/-! ## Engine / registry (Validator.Validate) -/

/-- A registered rule as the engine sees it: Apply with Go's two return
    values. -/
abbrev RuleFn := Spec → Result × Option String

/-- Registry lookup (Go map indexing v.rules[ruleName]). -/
def lookupRule : List (String × RuleFn) → String → Option RuleFn
  | [], _ => none
  | (k, f) :: rest, key => if k = key then some f else lookupRule rest key

/-- The per-name body of Validate's rule loop: unregistered names and
    faulting Apply invocations become error Results for that name. -/
def applyRegisteredRule (registry : List (String × RuleFn)) (spec : Spec)
    (name : String) : Result :=
  match lookupRule registry name with
  | none => { status := "error", message := some ("rule not found: " ++ name) }
  | some rule =>
    match rule spec with
    | (ruleResult, none) => ruleResult
    | (_, some cause) =>
      { status := "error", message := some ("error applying rule: " ++ cause) }

/-- Validate's rule loop: one Result per selected name.  The Go results
    map is modelled as the association list in selection order. -/
def applyRules (registry : List (String × RuleFn)) (spec : Spec)
    (names : List String) : List (String × Result) :=
  names.foldl (fun results name =>
    results ++ [(name, applyRegisteredRule registry spec name)]) []

/-- Validate's rule-subset extraction: keep the string entries of the
    caller's rules parameter; if none remain, every registered rule name is
    selected (Go iterates the registry map; here in registry order). -/
def extractRulesToApply (registry : List (String × RuleFn))
    (rulesParam : Option (List JValue)) : List String :=
  let rulesToApply := match rulesParam with
    | some rs => rs.foldl (fun acc r =>
        match r with
        | .str ruleName => acc ++ [ruleName]
        | _ => acc) []
    | none => []
  if rulesToApply.length = 0 then registry.map Prod.fst else rulesToApply

/-- Validator.Validate after the spec-parsing step: subset selection
    followed by the rule loop. -/
def validateCore (registry : List (String × RuleFn)) (spec : Spec)
    (rulesParam : Option (List JValue)) : List (String × Result) :=
  applyRules registry spec (extractRulesToApply registry rulesParam)

/-- registerBuiltInRules: the three structural rules under their
    registered names. -/
def builtinRules : List (String × RuleFn) :=
  [("solace_rest_rules", solaceRestRulesApply),
   ("solace_singular_user_resources", solaceSingularUserResourcesApply),
   ("solace_custom_actions", solaceCustomActionsApply)]

/-- The full registry: built-ins first, then the JSON rules loaded from the
    rules directory. -/
def fullRegistry (matchFn : Matcher) (jsonRules : List JSONRule) :
    List (String × RuleFn) :=
  builtinRules ++ jsonRules.map (fun r => (r.ruleName, jsonRuleApply matchFn r))

/-! ## URL path validator (synthesizer analysis functions) -/

/-- URLPathValidator.extractPathParams. -/
def extractPathParams (urlPath : String) : List String :=
  (strSegments urlPath).foldl (fun params segment =>
    if strStartsWith segment "\x7b" && strEndsWith segment "\x7d" then
      params ++ [innerName segment]
    else params) []

/-- URLPathValidator.endsWithResource. -/
def endsWithResource (urlPath : String) : Bool :=
  let segments := strSegments urlPath
  if segments.length = 0 then false
  else
    match segments.getLast? with
    | none => false
    | some lastSegment =>
      strStartsWith lastSegment "\x7b" && strEndsWith lastSegment "\x7d"

/-- URLPathValidator.determineHTTPMethods. -/
def determineHTTPMethods (endsWithResource : Bool) : List String :=
  let methods := ["get"]
  if endsWithResource then methods ++ ["put", "patch", "delete"]
  else methods ++ ["post"]

/-! ## General helper lemmas about the loop encodings -/

/-- A Go loop that appends to an accumulator is a foldl; it equals the
    initial accumulator followed by the flat map of the loop body. -/
theorem foldl_app {α β : Type} (g : α → List β) :
    ∀ (l : List α) (init : List β),
      l.foldl (fun acc x => acc ++ g x) init = init ++ l.flatMap g := by
  intro l
  induction l with
  | nil => intro init; simp
  | cons x xs ih => intro init; simp [List.foldl_cons, ih]

/-- Flat-mapping a guarded singleton is filtering followed by mapping. -/
theorem flatMap_guard_eq_filter_map {α β : Type} (p : α → Bool) (f : α → β) :
    ∀ l : List α,
      l.flatMap (fun x => if p x then [f x] else []) = (l.filter p).map f := by
  intro l
  induction l with
  | nil => rfl
  | cons x xs ih =>
    by_cases h : p x <;> simp [List.flatMap_cons, h, ih, List.filter_cons]

/-- Flat-mapping singletons is mapping. -/
theorem flatMap_singleton_eq_map {α β : Type} (f : α → β) :
    ∀ l : List α, l.flatMap (fun x => [f x]) = l.map f := by
  intro l
  induction l with
  | nil => rfl
  | cons x xs ih => simp [List.flatMap_cons, ih]

/-- Association-list lookup is invariant under permutation when the keys
    are unique (the situation of a Go map iterated in two orders). -/
theorem jlookup_perm {P P' : List (String × JValue)} (h : P.Perm P')
    (nd : (P.map Prod.fst).Nodup) : ∀ k, jlookup P k = jlookup P' k := by
  induction h with
  | nil => intro k; rfl
  | cons x _ ih =>
    intro k
    simp only [List.map_cons, List.nodup_cons] at nd
    simp only [jlookup]
    rw [ih nd.2 k]
  | swap x y l =>
    intro k
    simp only [List.map_cons, List.nodup_cons, List.mem_cons] at nd
    have hxy : y.1 ≠ x.1 := fun hcontra => nd.1 (Or.inl hcontra)
    simp only [jlookup]
    by_cases hy : y.1 = k
    · by_cases hx : x.1 = k
      · exact absurd (hy.trans hx.symm) hxy
      · simp [hy, hx]
    · simp [hy]
  | trans h₁ _ ih₁ ih₂ =>
    intro k
    have nd' : _ := (List.Perm.nodup_iff (h₁.map Prod.fst)).mp nd
    rw [ih₁ nd k, ih₂ nd' k]

/-- Permuting a list preserves Boolean existential scans. -/
theorem any_perm {α : Type} {l l' : List α} (h : l.Perm l') (p : α → Bool) :
    l.any p = l'.any p := by
  cases hl : l.any p with
  | true =>
    rcases List.any_eq_true.mp hl with ⟨x, hx, hpx⟩
    exact (List.any_eq_true.mpr ⟨x, h.mem_iff.mp hx, hpx⟩).symm
  | false =>
    cases hl' : l'.any p with
    | true =>
      rcases List.any_eq_true.mp hl' with ⟨x, hx, hpx⟩
      have : l.any p = true := List.any_eq_true.mpr ⟨x, h.mem_iff.mpr hx, hpx⟩
      rw [hl] at this; exact absurd this (by decide)
    | false => rfl

/-- Flat maps over the same list with pointwise-permuted bodies are
    permuted. -/
theorem flatMap_perm_of_forall {α β : Type} {f g : α → List β} :
    ∀ {l : List α}, (∀ x ∈ l, (f x).Perm (g x)) → (l.flatMap f).Perm (l.flatMap g) := by
  intro l
  induction l with
  | nil => intro _; simp
  | cons x xs ih =>
    intro hall
    simp only [List.flatMap_cons]
    exact (hall x (List.mem_cons_self x xs)).append
      (ih fun y hy => hall y (List.mem_cons_of_mem x hy))

/-- finishResult's status is determined by whether any issues exist. -/
theorem finishResult_status (issues : List Issue) :
    (finishResult issues).status = if issues.length > 0 then "failed" else "passed" := by
  unfold finishResult
  split <;> simp_all

/-- finishResult carries exactly the accumulated issues on failure. -/
theorem finishResult_issues (issues : List Issue) :
    (finishResult issues).issues = if issues.length > 0 then issues else [] := by
  unfold finishResult
  split <;> simp_all

/-- A successful registry lookup names an entry of the registry. -/
theorem lookupRule_mem {registry : List (String × RuleFn)} {n : String} {f : RuleFn} :
    lookupRule registry n = some f → (n, f) ∈ registry := by
  induction registry with
  | nil => intro h; exact absurd h (by simp [lookupRule])
  | cons e rest ih =>
    cases e with
    | mk k v =>
      intro h
      simp only [lookupRule] at h
      by_cases hk : k = n
      · subst hk
        rw [if_pos rfl] at h
        injection h with h
        subst h
        exact List.mem_cons_self _ _
      · rw [if_neg hk] at h
        exact List.mem_cons_of_mem _ (ih h)

/-! ## Characterizations of the rule loops as flat maps -/

/-- The issues one method entry of a path item contributes in
    SolaceRestRules.Apply. -/
def restMethodIssue (path : String) (entry : String × JValue) : List Issue :=
  if entry.1 = "parameters" || entry.1 = "summary" || entry.1 = "description" then []
  else
    match asObj (some entry.2) with
    | none => []
    | some _ =>
      match checkMethodPathConsistency path entry.1 with
      | some issue => [issue]
      | none => []

/-- The issues one paths entry contributes in SolaceRestRules.Apply. -/
def restPathIssues (entry : String × JValue) : List Issue :=
  match asObj (some entry.2) with
  | none => []
  | some pathItem => pathItem.flatMap (restMethodIssue entry.1)

theorem restRulesMethodLoop_eq (path : String) (pathItem : List (String × JValue))
    (issues : List Issue) :
    restRulesMethodLoop path pathItem issues
      = issues ++ pathItem.flatMap (restMethodIssue path) := by
  unfold restRulesMethodLoop
  have hstep : (fun (issues : List Issue) (entry : String × JValue) =>
      if entry.1 = "parameters" || entry.1 = "summary" || entry.1 = "description" then
        issues
      else
        match asObj (some entry.2) with
        | none => issues
        | some _ =>
          match checkMethodPathConsistency path entry.1 with
          | some issue => issues ++ [issue]
          | none => issues)
      = fun (issues : List Issue) entry => issues ++ restMethodIssue path entry := by
    funext issues entry
    unfold restMethodIssue
    split
    · simp
    · cases asObj (some entry.2) with
      | none => simp
      | some _ =>
        cases checkMethodPathConsistency path entry.1 with
        | none => simp
        | some issue => simp
  rw [hstep, foldl_app]

theorem solaceRestRulesApply_issues (spec : List (String × JValue))
    (paths : List (String × JValue)) (h : asObj (jlookup spec "paths") = some paths) :
    (solaceRestRulesApply (some spec)).1
      = finishResult (paths.flatMap restPathIssues) := by
  simp only [solaceRestRulesApply, h]
  have hstep : (fun (issues : List Issue) (entry : String × JValue) =>
      match asObj (some entry.2) with
      | none => issues
      | some pathItem => restRulesMethodLoop entry.1 pathItem issues)
      = fun (issues : List Issue) entry => issues ++ restPathIssues entry := by
    funext issues entry
    unfold restPathIssues
    cases asObj (some entry.2) with
    | none => simp
    | some pathItem => simp [restRulesMethodLoop_eq]
  simp only [hstep, foldl_app, List.nil_append]

/-- The issues one paths entry contributes in
    SolaceSingularUserResourcesRule.Apply. -/
def singularPathIssues (entry : String × JValue) : List Issue :=
  if strContainsSub entry.1 "/users/" && !strContainsSub entry.1 "/me/" then
    [{ path := some entry.1,
       message := "User-specific resources should use /me/ instead of /users/\x7bid\x7d" }]
  else []

theorem solaceSingularUserResourcesApply_issues (spec : List (String × JValue))
    (paths : List (String × JValue)) (h : asObj (jlookup spec "paths") = some paths) :
    (solaceSingularUserResourcesApply (some spec)).1
      = finishResult (paths.flatMap singularPathIssues) := by
  simp only [solaceSingularUserResourcesApply, h]
  have hstep : (fun (issues : List Issue) (entry : String × JValue) =>
      if strContainsSub entry.1 "/users/" && !strContainsSub entry.1 "/me/" then
        issues ++ [{ path := some entry.1,
                     message := "User-specific resources should use /me/ instead of /users/\x7bid\x7d" }]
      else issues)
      = fun (issues : List Issue) entry => issues ++ singularPathIssues entry := by
    funext issues entry
    unfold singularPathIssues
    split <;> simp
  simp only [hstep, foldl_app, List.nil_append]

/-- The issues one paths entry contributes in SolaceCustomActionsRule.Apply. -/
def customPathIssues (entry : String × JValue) : List Issue :=
  match asObj (some entry.2) with
  | none => []
  | some pathItem =>
    if strContainsSub entry.1 "/actions/" then
      match jlookup pathItem "post" with
      | some _ => []
      | none => [{ path := some entry.1, message := "Custom actions should use POST method" }]
    else []

theorem solaceCustomActionsApply_issues (spec : List (String × JValue))
    (paths : List (String × JValue)) (h : asObj (jlookup spec "paths") = some paths) :
    (solaceCustomActionsApply (some spec)).1
      = finishResult (paths.flatMap customPathIssues) := by
  simp only [solaceCustomActionsApply, h]
  have hstep : (fun (issues : List Issue) (entry : String × JValue) =>
      match asObj (some entry.2) with
      | none => issues
      | some pathItem =>
        if strContainsSub entry.1 "/actions/" then
          match jlookup pathItem "post" with
          | some _ => issues
          | none => issues ++ [{ path := some entry.1,
                                 message := "Custom actions should use POST method" }]
        else issues)
      = fun (issues : List Issue) entry => issues ++ customPathIssues entry := by
    funext issues entry
    unfold customPathIssues
    cases asObj (some entry.2) with
    | none => simp
    | some pathItem =>
      simp only
      split
      · cases jlookup pathItem "post" with
        | none => simp
        | some _ => simp
      · simp
  simp only [hstep, foldl_app, List.nil_append]

/-- The path_pattern branch of condIssues as a flat map. -/
theorem condIssues_path_pattern (matchFn : Matcher) (spec paths : List (String × JValue))
    (c : Condition) (h : c.type = "path_pattern") :
    condIssues matchFn spec paths c
      = paths.flatMap (fun entry =>
          if !(matchFn c.pattern entry.1) then
            [{ path := some entry.1, message := c.message }]
          else []) := by
  unfold condIssues
  rw [if_pos h]
  have hstep : (fun (issues : List Issue) (entry : String × JValue) =>
      if !(matchFn c.pattern entry.1) then
        issues ++ [{ path := some entry.1, message := c.message }]
      else issues)
      = fun (issues : List Issue) entry => issues ++
          (if !(matchFn c.pattern entry.1) then
            [{ path := some entry.1, message := c.message }]
          else []) := by
    funext issues entry
    split <;> simp
  simp only [hstep, foldl_app, List.nil_append]

/-- The resource_naming branch of condIssues as a flat map. -/
theorem condIssues_resource_naming (matchFn : Matcher) (spec paths : List (String × JValue))
    (c : Condition) (h : c.type = "resource_naming") :
    condIssues matchFn spec paths c
      = paths.flatMap (fun entry =>
          resourceNamingSegLoop matchFn c.pattern c.message entry.1
            (strSegments entry.1)) := by
  unfold condIssues
  rw [if_neg (by rw [h]; decide), if_neg (by rw [h]; decide),
      if_neg (by rw [h]; decide), if_pos h]
  have hstep : (fun (issues : List Issue) (entry : String × JValue) =>
      issues ++ resourceNamingSegLoop matchFn c.pattern c.message entry.1
        (strSegments entry.1))
      = fun (issues : List Issue) entry => issues ++
          resourceNamingSegLoop matchFn c.pattern c.message entry.1
            (strSegments entry.1) := rfl
  simp only [hstep, foldl_app, List.nil_append]

/-- JSONRule.Apply on an enabled rule over a spec with a paths mapping:
    the issues are the concatenation of each condition's issues in
    declared order. -/
theorem jsonRuleApply_issues (matchFn : Matcher) (r : JSONRule)
    (spec paths : List (String × JValue)) (he : r.enabled = true)
    (h : asObj (jlookup spec "paths") = some paths) :
    (jsonRuleApply matchFn r (some spec)).1
      = finishResult (r.conditions.flatMap (condIssues matchFn spec paths)) := by
  unfold jsonRuleApply
  rw [he]
  simp only [Bool.not_true, Bool.false_eq_true, if_false, h]
  rw [foldl_app, List.nil_append]

/-- Validate's rule loop is a map over the selected names. -/
theorem applyRules_eq_map (registry : List (String × RuleFn)) (spec : Spec)
    (names : List String) :
    applyRules registry spec names
      = names.map (fun name => (name, applyRegisteredRule registry spec name)) := by
  unfold applyRules
  rw [foldl_app, List.nil_append,
      flatMap_singleton_eq_map (fun name => (name, applyRegisteredRule registry spec name))]

/-! ## Claim C1: method-path consistency of solace_rest_rules -/

/-- The predicate the code actually uses to treat a path as a specific
    resource: the path contains the two-character sequence "/\x7b" and ends
    with "\x7d". -/
def pathEndsWithParamSub (path : String) : Bool :=
  strContainsSub path "/\x7b" && strEndsWith path "\x7d"

/-- A segment is a brace-delimited parameter (the wording of the original
    claim): it starts with "\x7b" and ends with "\x7d". -/
def braceParam (s : String) : Bool :=
  strStartsWith s "\x7b" && strEndsWith s "\x7d"

/-- When a (path, method) pair is rejected: POST on a path treated as a
    specific resource, or PUT/PATCH/DELETE on a path not treated as one;
    GET and unknown methods are never rejected.  Methods compare
    case-insensitively. -/
def methodViolation (path method : String) : Bool :=
  let m := strToLower method
  (m = "post" && pathEndsWithParamSub path)
    || ((m = "put" || m = "patch" || m = "delete") && !pathEndsWithParamSub path)

/-- The issue the code emits for a rejected (path, method) pair. -/
def restIssue (path method : String) : Issue :=
  let m := strToLower method
  if m = "post" then
    { path := some path, method := some m,
      message := "POST should be used for collection paths, not for specific resources" }
  else
    { path := some path, method := some m,
      message := strToUpper m ++ " should be used for specific resources, not for collections" }

theorem checkMethodPathConsistency_eq (path method : String) :
    checkMethodPathConsistency path method
      = if methodViolation path method then some (restIssue path method) else none := by
  simp only [checkMethodPathConsistency, methodViolation, restIssue, pathEndsWithParamSub]
  by_cases hget : strToLower method = "get" <;>
    by_cases hpost : strToLower method = "post" <;>
      by_cases hput : strToLower method = "put" <;>
        by_cases hpatch : strToLower method = "patch" <;>
          by_cases hdel : strToLower method = "delete" <;>
            cases hid : (strContainsSub path "/\x7b" && strEndsWith path "\x7d") <;>
              simp_all

/-- The issues the method-path-consistency rule owes one paths entry under
    the amended claim: every method key of the path item other than
    parameters/summary/description whose value is a mapping and which
    violates the method rules contributes one issue. -/
def claimRestIssues (entry : String × JValue) : List Issue :=
  match entry.2 with
  | .obj pathItem =>
    pathItem.flatMap (fun me =>
      if me.1 = "parameters" || me.1 = "summary" || me.1 = "description" then []
      else
        match me.2 with
        | .obj _ => if methodViolation entry.1 me.1 then [restIssue entry.1 me.1] else []
        | _ => [])
  | _ => []

theorem restMethodIssue_eq_claim (p : String) (me : String × JValue) :
    restMethodIssue p me
      = (if me.1 = "parameters" || me.1 = "summary" || me.1 = "description" then []
         else
           match me.2 with
           | .obj _ => if methodViolation p me.1 then [restIssue p me.1] else []
           | _ => []) := by
  unfold restMethodIssue
  cases hskip : (me.1 = "parameters" || me.1 = "summary" || me.1 = "description") with
  | true => simp [hskip]
  | false =>
    simp only [hskip, Bool.false_eq_true, if_false]
    obtain ⟨k, v⟩ := me
    cases v with
    | obj pi =>
      simp only [asObj, checkMethodPathConsistency_eq]
      cases hv : methodViolation p k <;> simp [hv]
    | str s => rfl
    | num n => rfl
    | bool b => rfl
    | null => rfl
    | arr a => rfl

theorem restPathIssues_eq_claim (entry : String × JValue) :
    restPathIssues entry = claimRestIssues entry := by
  obtain ⟨p, v⟩ := entry
  cases v with
  | obj pathItem =>
    unfold restPathIssues claimRestIssues
    simp only [asObj]
    exact List.flatMap_congr fun me _ => restMethodIssue_eq_claim p me
  | str s => rfl
  | num n => rfl
  | bool b => rfl
  | null => rfl
  | arr a => rfl

/-- C1 (amended).  For every spec whose paths key is a mapping, the issues
    of solace_rest_rules are exactly one issue per (path, method) pair
    (skipping parameters/summary/description keys and non-mapping method
    values) with POST rejected exactly when the path contains "/\x7b" and
    ends with "\x7d", PUT/PATCH/DELETE rejected exactly when it does not,
    and GET never rejected; the status is failed exactly when some pair is
    rejected.  In particular the spec with paths /widgets (post) and
    /widgets/\x7bid\x7d (get, put) passes, and the spec with paths
    /widgets/\x7bid\x7d (post) fails with exactly one issue referencing
    that path and method post. -/
theorem solace_rest_rules_method_path_consistency :
    (∀ (spec paths : List (String × JValue)),
        asObj (jlookup spec "paths") = some paths →
        (solaceRestRulesApply (some spec)).1.issues = paths.flatMap claimRestIssues
          ∧ ((solaceRestRulesApply (some spec)).1.status = "failed"
              ↔ paths.flatMap claimRestIssues ≠ []))
    ∧ (solaceRestRulesApply (some [("paths", .obj
        [("/widgets", .obj [("post", .obj [])]),
         ("/widgets/\x7bid\x7d", .obj [("get", .obj []), ("put", .obj [])])])])).1
        = { status := "passed" }
    ∧ (solaceRestRulesApply (some [("paths", .obj
        [("/widgets/\x7bid\x7d", .obj [("post", .obj [])])])])).1
        = { status := "failed",
            issues := [{ path := some "/widgets/\x7bid\x7d", method := some "post",
                         message := "POST should be used for collection paths, not for specific resources" }] } := by
  refine ⟨?_, by decide, by decide⟩
  intro spec paths h
  rw [solaceRestRulesApply_issues spec paths h]
  have hflat : paths.flatMap restPathIssues = paths.flatMap claimRestIssues :=
    List.flatMap_congr fun e _ => restPathIssues_eq_claim e
  constructor
  · rw [finishResult_issues, hflat]
    split
    · rfl
    · rename_i hlen
      simp only [not_lt, Nat.le_zero, List.length_eq_zero] at hlen
      exact hlen.symm
  · rw [finishResult_status, hflat]
    constructor
    · intro hst
      split at hst
      · rename_i hlen
        intro hnil
        rw [hnil] at hlen
        exact absurd hlen (by decide)
      · exact absurd hst (by decide)
    · intro hnil
      have : (paths.flatMap claimRestIssues).length > 0 := by
        cases hc : paths.flatMap claimRestIssues with
        | nil => exact absurd hc hnil
        | cons a l => simp
      rw [if_pos this]

/-- C1 witness: the general part of the theorem applied to a concrete spec
    with an empty paths mapping. -/
theorem solace_rest_rules_method_path_consistency_witness :
    (solaceRestRulesApply (some [("paths", JValue.obj [])])).1.issues
        = ([] : List (String × JValue)).flatMap claimRestIssues
      ∧ ((solaceRestRulesApply (some [("paths", JValue.obj [])])).1.status = "failed"
          ↔ ([] : List (String × JValue)).flatMap claimRestIssues ≠ []) :=
  solace_rest_rules_method_path_consistency.1 [("paths", JValue.obj [])] [] rfl

/-- C1 counterexample to the original claim: for the path /a/\x7bb\x7d/c\x7d
    the last slash-segment c\x7d is not a brace-delimited parameter, yet the
    rule rejects POST on it, because the code tests only that the path
    contains "/\x7b" somewhere and ends with "\x7d". -/
theorem solace_rest_rules_post_last_segment_counterexample :
    (strSegments "/a/\x7bb\x7d/c\x7d").getLast? = some "c\x7d"
    ∧ braceParam "c\x7d" = false
    ∧ (solaceRestRulesApply (some [("paths", .obj
        [("/a/\x7bb\x7d/c\x7d", .obj [("post", .obj [])])])])).1
      = { status := "failed",
          issues := [{ path := some "/a/\x7bb\x7d/c\x7d", method := some "post",
                       message := "POST should be used for collection paths, not for specific resources" }] } := by
  refine ⟨by decide, by decide, by decide⟩

/-! ## Claim C3: URL path analysis -/

theorem extractPathParams_eq (p : String) :
    extractPathParams p = ((strSegments p).filter braceParam).map innerName := by
  unfold extractPathParams
  have hstep : (fun (params : List String) (segment : String) =>
      if strStartsWith segment "\x7b" && strEndsWith segment "\x7d" then
        params ++ [innerName segment]
      else params)
      = fun (params : List String) segment =>
          params ++ (if braceParam segment then [innerName segment] else []) := by
    funext params segment
    unfold braceParam
    split <;> simp
  rw [hstep, foldl_app, List.nil_append, flatMap_guard_eq_filter_map]

theorem endsWithResource_iff (p : String) :
    endsWithResource p = true
      ↔ ∃ s, (strSegments p).getLast? = some s ∧ braceParam s = true := by
  unfold endsWithResource braceParam
  cases hsegs : strSegments p with
  | nil => simp
  | cons a l =>
    rw [if_neg (by simp)]
    have hlast : (a :: l).getLast? = some ((a :: l).getLast (by simp)) :=
      List.getLast?_eq_getLast _ _
    rw [hlast]
    simp

/-- C3.  extractPathParams reports the inner names of the brace-wrapped
    slash-segments in left-to-right order; endsWithResource holds exactly
    when the final segment is brace-delimited; determineHTTPMethods yields
    get/put/patch/delete for resource paths and get/post otherwise; and on
    /api/v0/admin/cloudAgents/\x7bdatacenterId\x7d/upgrades the reported
    analysis is (["datacenterId"], false, [get, post]). -/
theorem validate_url_path_analysis :
    (∀ p : String,
        extractPathParams p = ((strSegments p).filter braceParam).map innerName)
    ∧ (∀ p : String,
        endsWithResource p = true
          ↔ ∃ s, (strSegments p).getLast? = some s ∧ braceParam s = true)
    ∧ determineHTTPMethods true = ["get", "put", "patch", "delete"]
    ∧ determineHTTPMethods false = ["get", "post"]
    ∧ extractPathParams "/api/v0/admin/cloudAgents/\x7bdatacenterId\x7d/upgrades"
        = ["datacenterId"]
    ∧ endsWithResource "/api/v0/admin/cloudAgents/\x7bdatacenterId\x7d/upgrades" = false
    ∧ determineHTTPMethods
        (endsWithResource "/api/v0/admin/cloudAgents/\x7bdatacenterId\x7d/upgrades")
        = ["get", "post"] :=
  ⟨extractPathParams_eq, endsWithResource_iff, rfl, rfl,
   by decide, by decide, by decide⟩

/-! ## Claim C5: resource_naming stops at the first violating segment -/

/-- The first non-empty slash-segment failing the pattern (the wording of
    the claim). -/
def firstBadSegment (matchFn : Matcher) (pattern : String) (segs : List String) :
    Option String :=
  (segs.filter (fun s => s ≠ "")).find? (fun s => !(matchFn pattern s))

theorem resourceNamingSegLoop_eq (matchFn : Matcher) (pattern msg path : String) :
    ∀ segs : List String,
      resourceNamingSegLoop matchFn pattern msg path segs
        = match firstBadSegment matchFn pattern segs with
          | some seg => [{ path := some path, segment := some seg, message := msg }]
          | none => [] := by
  intro segs
  induction segs with
  | nil => rfl
  | cons s rest ih =>
    unfold resourceNamingSegLoop firstBadSegment
    unfold firstBadSegment at ih
    by_cases hs : s = ""
    · rw [if_pos hs, ih, List.filter_cons_of_neg (by simp [hs])]
    · by_cases hm : matchFn pattern s = true
      · have hcond : ¬ ((!(matchFn pattern s)) = true) := by simp [hm]
        rw [if_neg hs, if_neg hcond, ih, List.filter_cons_of_pos (by simp [hs]),
            @List.find?_cons_of_neg String (fun t => !(matchFn pattern t)) s _ hcond]
      · have hcond : (!(matchFn pattern s)) = true := by
          cases hx : matchFn pattern s
          · rfl
          · exact absurd hx hm
        rw [if_neg hs, if_pos hcond, List.filter_cons_of_pos (by simp [hs]),
            @List.find?_cons_of_pos String (fun t => !(matchFn pattern t)) s _ hcond]

/-- C5.  A resource_naming condition contributes, for each path, exactly
    the issue of its first non-empty segment failing the pattern (or
    nothing), so at most one issue per path; in particular the path
    /Bad1/Bad2 with both segments invalid yields exactly one issue, for
    Bad1. -/
theorem resource_naming_first_violation_only :
    (∀ (matchFn : Matcher) (spec paths : List (String × JValue)) (pattern msg : String),
        condIssues matchFn spec paths
            { type := "resource_naming", pattern := pattern, message := msg }
          = paths.flatMap (fun entry =>
              match firstBadSegment matchFn pattern (strSegments entry.1) with
              | some seg => [{ path := some entry.1, segment := some seg, message := msg }]
              | none => []))
    ∧ (∀ (matchFn : Matcher) (pattern msg path : String) (segs : List String),
        (resourceNamingSegLoop matchFn pattern msg path segs).length ≤ 1)
    ∧ (jsonRuleApply (fun _ s => s = "widgets")
        { ruleName := "naming", ruleDescription := "d", enabled := true,
          conditions := [{ type := "resource_naming", pattern := "p",
                           message := "bad segment" }] }
        (some [("paths", .obj [("/Bad1/Bad2", .obj [])])])).1
        = { status := "failed",
            issues := [{ path := some "/Bad1/Bad2", segment := some "Bad1",
                         message := "bad segment" }] } := by
  refine ⟨?_, ?_, by decide⟩
  · intro matchFn spec paths pattern msg
    rw [condIssues_resource_naming matchFn spec paths _ rfl]
    exact List.flatMap_congr fun e _ => resourceNamingSegLoop_eq matchFn pattern msg e.1 _
  · intro matchFn pattern msg path segs
    rw [resourceNamingSegLoop_eq]
    cases firstBadSegment matchFn pattern segs <;> simp

/-! ## Claim C6: disabled rules are skipped; enabled never fails loading -/

/-- C6.  A disabled declarative rule returns the skipped result on every
    spec (nil included) without inspecting it, and the load-time validation
    of a rule is wholly independent of the enabled flag. -/
theorem disabled_rule_skipped_and_load_independent :
    (∀ (matchFn : Matcher) (r : JSONRule) (spec : Spec), r.enabled = false →
        jsonRuleApply matchFn r spec
          = ({ status := "skipped", message := some "Rule is disabled" }, none))
    ∧ (∀ (regexOk : RegexOk) (r : JSONRule) (b : Bool),
        jsonRuleValidate regexOk { r with enabled := b } = jsonRuleValidate regexOk r) := by
  constructor
  · intro matchFn r spec he
    unfold jsonRuleApply
    rw [he]
    rfl
  · intro regexOk r b
    rfl

/-- C6 witness: a concrete disabled rule applied to the nil spec is
    skipped, and flipping enabled on a concrete rule leaves its load-time
    validation unchanged. -/
theorem disabled_rule_skipped_witness :
    jsonRuleApply (fun _ _ => true)
        { ruleName := "r", ruleDescription := "d", enabled := false,
          conditions := [] } none
      = ({ status := "skipped", message := some "Rule is disabled" }, none) :=
  disabled_rule_skipped_and_load_independent.1 (fun _ _ => true)
    { ruleName := "r", ruleDescription := "d", enabled := false, conditions := [] }
    none rfl

/-! ## Claim C2: schema_field schema-mapping lookup -/

/-- When the schema_field lookup fails (amended description): if the spec
    has a components mapping the lookup commits to components.schemas and
    fails exactly when that is absent or not a mapping, never consulting
    definitions; only when components is absent or not a mapping does it
    fall back to definitions. -/
def schemaLookupFails (spec : List (String × JValue)) : Bool :=
  match asObj (jlookup spec "components") with
  | some components => (asObj (jlookup components "schemas")).isNone
  | none => (asObj (jlookup spec "definitions")).isNone

/-- The schema mapping the lookup locates when it does not fail. -/
def locatedSchemas (spec : List (String × JValue)) : List (String × JValue) :=
  match asObj (jlookup spec "components") with
  | some components => (asObj (jlookup components "schemas")).getD []
  | none => (asObj (jlookup spec "definitions")).getD []

/-- The audit condition of the claim's scenario: field createdTime with
    format date-time. -/
def auditCondition : Condition :=
  { type := "schema_field", field := "createdTime", format := "date-time",
    message := "createdTime field required" }

/-- A one-condition rule around auditCondition. -/
def auditRule : JSONRule :=
  { ruleName := "audit_fields", ruleDescription := "audit", enabled := true,
    conditions := [auditCondition] }

/-- C2 (amended).  A schema_field condition locates the schema mapping by
    committing to components.schemas whenever components is a mapping
    (emitting exactly the one no-schema-definitions issue when
    components.schemas is absent, without falling back), and consulting
    definitions only when components is absent or not a mapping; when the
    lookup fails the condition contributes exactly that one issue and
    nothing else.  In particular the createdTime/date-time condition on a
    spec with no components and no definitions key yields exactly one
    such issue. -/
theorem schema_field_no_schema_definitions :
    (∀ (spec : List (String × JValue)) (c : Condition),
        schemaFieldIssues spec c
          = if schemaLookupFails spec then [noSchemaIssue c.field]
            else schemaFieldIssues.schemaFieldFinish c (locatedSchemas spec))
    ∧ (jsonRuleApply (fun _ _ => false) auditRule (some [("paths", .obj [])])).1
        = { status := "failed", issues := [noSchemaIssue "createdTime"] } := by
  constructor
  · intro spec c
    unfold schemaFieldIssues schemaLookupFails locatedSchemas
    cases asObj (jlookup spec "components") with
    | some components =>
      simp only
      cases asObj (jlookup components "schemas") with
      | some schemas => simp
      | none => simp
    | none =>
      simp only
      cases asObj (jlookup spec "definitions") with
      | some schemas => simp
      | none => simp
  · decide

/-- C2 counterexample to the original claim's fallback chain: a spec whose
    components mapping lacks schemas but whose definitions mapping contains
    the required field with the required format.  A schema structure the
    claimed chain would locate exists and satisfies the condition, yet the
    code emits the no-schema-definitions issue and fails, because it never
    falls back from components to definitions. -/
theorem schema_field_fallback_chain_counterexample :
    asObj (jlookup [("paths", JValue.obj []), ("components", JValue.obj []),
        ("definitions", JValue.obj [("Widget", JValue.obj [("properties", JValue.obj
          [("createdTime", JValue.obj [("format", JValue.str "date-time")])])])])]
        "definitions")
      = some [("Widget", JValue.obj [("properties", JValue.obj
          [("createdTime", JValue.obj [("format", JValue.str "date-time")])])])]
    ∧ schemaFieldScan "createdTime" "date-time" "createdTime field required"
        [("Widget", JValue.obj [("properties", JValue.obj
          [("createdTime", JValue.obj [("format", JValue.str "date-time")])])])]
      = ([], true)
    ∧ (jsonRuleApply (fun _ _ => false) auditRule
        (some [("paths", JValue.obj []), ("components", JValue.obj []),
          ("definitions", JValue.obj [("Widget", JValue.obj [("properties", JValue.obj
            [("createdTime", JValue.obj [("format", JValue.str "date-time")])])])])])).1
      = { status := "failed", issues := [noSchemaIssue "createdTime"] } := by
  refine ⟨rfl, by decide, by decide⟩

/-! ## Claims C4, C9, C10: engine behaviour -/

/-- The report always carries exactly the selected names as its keys. -/
theorem applyRules_map_fst (registry : List (String × RuleFn)) (spec : Spec)
    (names : List String) :
    (applyRules registry spec names).map Prod.fst = names := by
  rw [applyRules_eq_map, List.map_map]
  exact List.map_id names

/-- C4.  An unregistered rule name yields a single error Result for that
    name; every requested name receives exactly its own per-name Result (a
    faulting Apply is recorded as an error Result for that name), so no
    rule's fault removes any other rule's entry from the report. -/
theorem validate_rule_fault_isolated :
    (∀ (registry : List (String × RuleFn)) (spec : Spec) (r : String),
        lookupRule registry r = none →
        validateCore registry spec (some [.str r])
          = [(r, { status := "error", message := some ("rule not found: " ++ r) })])
    ∧ (∀ (registry : List (String × RuleFn)) (spec : Spec) (names : List String)
        (n : String), n ∈ names →
        (n, applyRegisteredRule registry spec n) ∈ applyRules registry spec names)
    ∧ (∀ (registry : List (String × RuleFn)) (spec : Spec) (n : String)
        (f : RuleFn) (res : Result) (cause : String),
        lookupRule registry n = some f → f spec = (res, some cause) →
        applyRegisteredRule registry spec n
          = { status := "error", message := some ("error applying rule: " ++ cause) })
    ∧ (∀ (registry : List (String × RuleFn)) (spec : Spec) (names : List String),
        (applyRules registry spec names).map Prod.fst = names) := by
  refine ⟨?_, ?_, ?_, applyRules_map_fst⟩
  · intro registry spec r h
    simp [validateCore, extractRulesToApply, applyRules, applyRegisteredRule, h]
  · intro registry spec names n hn
    rw [applyRules_eq_map]
    exact List.mem_map_of_mem _ hn
  · intro registry spec n f res cause h1 h2
    simp [applyRegisteredRule, h1, h2]

/-- C4 witness: the unregistered name nope against the built-in registry
    and the nil spec. -/
theorem validate_rule_fault_isolated_witness :
    validateCore builtinRules none (some [.str "nope"])
      = [("nope", { status := "error", message := some ("rule not found: " ++ "nope") })] :=
  validate_rule_fault_isolated.1 builtinRules none "nope" rfl

/-- The string entries of the caller-supplied rules parameter, in order. -/
def stringEntries (rs : List JValue) : List String :=
  rs.filterMap (fun r => asStr (some r))

theorem extract_foldl_eq_stringEntries (rs : List JValue) :
    rs.foldl (fun acc r =>
      match r with
      | .str ruleName => acc ++ [ruleName]
      | _ => acc) []
    = stringEntries rs := by
  have hstep : (fun (acc : List String) (r : JValue) =>
      match r with
      | .str ruleName => acc ++ [ruleName]
      | _ => acc)
      = fun acc r => acc ++ (match r with | .str ruleName => [ruleName] | _ => []) := by
    funext acc r
    cases r <;> simp
  rw [hstep, foldl_app, List.nil_append]
  induction rs with
  | nil => rfl
  | cons r rest ih =>
    cases r <;> simp [stringEntries, List.flatMap_cons, asStr] <;>
      simpa [stringEntries, asStr] using ih

/-- C9.  Non-string entries of the rules parameter are silently dropped:
    the selected subset is exactly the string entries, and when no string
    entries exist at all the filtered subset is empty, so every registered
    rule is run. -/
theorem validate_non_string_rule_entries_dropped :
    (∀ (registry : List (String × RuleFn)) (rs : List JValue),
        extractRulesToApply registry (some rs)
          = if stringEntries rs = [] then registry.map Prod.fst else stringEntries rs)
    ∧ (∀ (registry : List (String × RuleFn)) (spec : Spec) (rs : List JValue),
        (∀ v ∈ rs, asStr (some v) = none) →
        (validateCore registry spec (some rs)).map Prod.fst = registry.map Prod.fst) := by
  have hextract : ∀ (registry : List (String × RuleFn)) (rs : List JValue),
      extractRulesToApply registry (some rs)
        = if stringEntries rs = [] then registry.map Prod.fst else stringEntries rs := by
    intro registry rs
    show (let rulesToApply := rs.foldl (fun acc r =>
        match r with
        | .str ruleName => acc ++ [ruleName]
        | _ => acc) [];
      if rulesToApply.length = 0 then registry.map Prod.fst else rulesToApply) = _
    rw [extract_foldl_eq_stringEntries]
    by_cases h : stringEntries rs = []
    · rw [if_pos h, if_pos (by rw [h]; rfl)]
    · rw [if_neg h, if_neg (by simpa [List.length_eq_zero] using h)]
  refine ⟨hextract, ?_⟩
  intro registry spec rs hall
  have hnil : stringEntries rs = [] := by
    unfold stringEntries
    exact List.filterMap_eq_nil_iff.mpr hall
  unfold validateCore
  rw [hextract registry rs, if_pos hnil, applyRules_map_fst]

/-- C9 witness: a rules list holding only non-string values selects every
    registered rule. -/
theorem validate_non_string_rule_entries_dropped_witness :
    (validateCore builtinRules none (some [.num 1, .bool true])).map Prod.fst
      = builtinRules.map Prod.fst :=
  validate_non_string_rule_entries_dropped.2 builtinRules none [.num 1, .bool true]
    (by decide)

/-- The structural REST rule never returns a Go error. -/
theorem solaceRestRulesApply_err : ∀ spec : Spec, (solaceRestRulesApply spec).2 = none := by
  intro spec
  cases spec with
  | none => rfl
  | some s =>
    cases hp : asObj (jlookup s "paths") <;> simp [solaceRestRulesApply, hp]

/-- The singular-user-resources rule never returns a Go error. -/
theorem solaceSingularUserResourcesApply_err :
    ∀ spec : Spec, (solaceSingularUserResourcesApply spec).2 = none := by
  intro spec
  cases spec with
  | none => rfl
  | some s =>
    cases hp : asObj (jlookup s "paths") <;>
      simp [solaceSingularUserResourcesApply, hp]

/-- The custom-actions rule never returns a Go error. -/
theorem solaceCustomActionsApply_err :
    ∀ spec : Spec, (solaceCustomActionsApply spec).2 = none := by
  intro spec
  cases spec with
  | none => rfl
  | some s =>
    cases hp : asObj (jlookup s "paths") <;> simp [solaceCustomActionsApply, hp]

/-- A JSON rule never returns a Go error. -/
theorem jsonRuleApply_err : ∀ (matchFn : Matcher) (r : JSONRule) (spec : Spec),
    (jsonRuleApply matchFn r spec).2 = none := by
  intro matchFn r spec
  cases hr : r.enabled with
  | false => simp [jsonRuleApply, hr]
  | true =>
    cases spec with
    | none => simp [jsonRuleApply, hr]
    | some s =>
      cases hp : asObj (jlookup s "paths") <;> simp [jsonRuleApply, hr, hp]

/-- For a registered name the engine records the rule's own Result: no
    registered rule ever reaches the error-applying branch. -/
theorem applyRegisteredRule_registered (matchFn : Matcher) (jsonRules : List JSONRule)
    (spec : Spec) (n : String) (f : RuleFn)
    (hlook : lookupRule (fullRegistry matchFn jsonRules) n = some f) :
    applyRegisteredRule (fullRegistry matchFn jsonRules) spec n = (f spec).1 := by
  have hmem : (n, f) ∈ fullRegistry matchFn jsonRules := lookupRule_mem hlook
  have herr : (f spec).2 = none := by
    rcases List.mem_append.mp hmem with hb | hj
    · simp only [builtinRules, List.mem_cons, List.not_mem_nil] at hb
      rcases hb with h | h | h | h
      · rw [(Prod.mk.injEq _ _ _ _).mp h |>.2]; exact solaceRestRulesApply_err spec
      · rw [(Prod.mk.injEq _ _ _ _).mp h |>.2]
        exact solaceSingularUserResourcesApply_err spec
      · rw [(Prod.mk.injEq _ _ _ _).mp h |>.2]; exact solaceCustomActionsApply_err spec
      · exact absurd h (by simp)
    · rcases List.mem_map.mp hj with ⟨r, _, hr⟩
      rw [(Prod.mk.injEq _ _ _ _).mp hr |>.2.symm]
      exact jsonRuleApply_err matchFn r spec
  rcases hfs : f spec with ⟨res, err⟩
  have : err = none := by rw [hfs] at herr; exact herr
  subst this
  simp [applyRegisteredRule, hlook, hfs]

/-- C10.  Every Apply in the repository returns a nil Go error on every
    spec (nil and malformed included), so for every registered rule the
    engine records the rule's own Result and the error-applying branch is
    unreachable. -/
theorem apply_never_returns_go_error :
    (∀ spec : Spec, (solaceRestRulesApply spec).2 = none)
    ∧ (∀ spec : Spec, (solaceSingularUserResourcesApply spec).2 = none)
    ∧ (∀ spec : Spec, (solaceCustomActionsApply spec).2 = none)
    ∧ (∀ (matchFn : Matcher) (r : JSONRule) (spec : Spec),
        (jsonRuleApply matchFn r spec).2 = none)
    ∧ (∀ (matchFn : Matcher) (jsonRules : List JSONRule) (spec : Spec)
        (n : String) (f : RuleFn),
        lookupRule (fullRegistry matchFn jsonRules) n = some f →
        applyRegisteredRule (fullRegistry matchFn jsonRules) spec n = (f spec).1) :=
  ⟨solaceRestRulesApply_err, solaceSingularUserResourcesApply_err,
   solaceCustomActionsApply_err, jsonRuleApply_err,
   fun matchFn jsonRules spec n f h =>
     applyRegisteredRule_registered matchFn jsonRules spec n f h⟩

/-- C10 witness: the registered name solace_rest_rules resolves to the
    structural rule's own Result on the nil spec. -/
theorem apply_never_returns_go_error_witness :
    applyRegisteredRule (fullRegistry (fun _ _ => true) []) none "solace_rest_rules"
      = (solaceRestRulesApply none).1 :=
  apply_never_returns_go_error.2.2.2.2 (fun _ _ => true) [] none
    "solace_rest_rules" solaceRestRulesApply rfl

/-! ## Claim C7: condition order does not affect the status -/

/-- C7.  For an enabled declarative rule applied to a spec whose paths key
    is a mapping, permuting the condition list leaves the Result's status
    unchanged (only the issue order can change). -/
theorem condition_order_preserves_status :
    ∀ (matchFn : Matcher) (r : JSONRule) (conds' : List Condition)
      (spec paths : List (String × JValue)),
      r.enabled = true →
      asObj (jlookup spec "paths") = some paths →
      r.conditions.Perm conds' →
      (jsonRuleApply matchFn r (some spec)).1.status
        = (jsonRuleApply matchFn { r with conditions := conds' } (some spec)).1.status := by
  intro matchFn r conds' spec paths he hp hperm
  rw [jsonRuleApply_issues matchFn r spec paths he hp,
      jsonRuleApply_issues matchFn { r with conditions := conds' } spec paths he hp,
      finishResult_status, finishResult_status]
  have hiss : (r.conditions.flatMap (condIssues matchFn spec paths)).Perm
      (conds'.flatMap (condIssues matchFn spec paths)) :=
    List.Perm.flatMap_right _ hperm
  rw [hiss.length_eq]

/-- C7 witness: swapping two concrete conditions leaves the status of a
    concrete application unchanged. -/
theorem condition_order_preserves_status_witness :
    (jsonRuleApply (fun _ _ => false)
        { ruleName := "perm", ruleDescription := "d", enabled := true,
          conditions := [{ type := "path_pattern", pattern := "a", message := "mA" },
                         { type := "parameter_check", path := "/w", message := "mB" }] }
        (some [("paths", JValue.obj [("/w", JValue.obj [])])])).1.status
      = (jsonRuleApply (fun _ _ => false)
          { ruleName := "perm", ruleDescription := "d", enabled := true,
            conditions := [{ type := "parameter_check", path := "/w", message := "mB" },
                           { type := "path_pattern", pattern := "a", message := "mA" }] }
          (some [("paths", JValue.obj [("/w", JValue.obj [])])])).1.status :=
  condition_order_preserves_status (fun _ _ => false)
    { ruleName := "perm", ruleDescription := "d", enabled := true,
      conditions := [{ type := "path_pattern", pattern := "a", message := "mA" },
                     { type := "parameter_check", path := "/w", message := "mB" }] }
    ([{ type := "parameter_check", path := "/w", message := "mB" },
      { type := "path_pattern", pattern := "a", message := "mA" }] : List Condition)
    [("paths", JValue.obj [("/w", JValue.obj [])])]
    [("/w", JValue.obj [])]
    rfl rfl
    (List.Perm.swap ({ type := "parameter_check", path := "/w", message := "mB" } : Condition)
      ({ type := "path_pattern", pattern := "a", message := "mA" } : Condition) [])

/-! ## Claim C8: determinism of Validate across map iteration orders -/

/-- A spec whose paths mapping is iterated in the order of P; replacing P
    by a permutation of it models a different Go map iteration order over
    the same parsed spec. -/
def specWithPaths (P rest : List (String × JValue)) : List (String × JValue) :=
  ("paths", JValue.obj P) :: rest

/-- A spec with a paths mapping and a components.schemas mapping whose
    iteration order is the order of S. -/
def specWithSchemas (P S rest : List (String × JValue)) : List (String × JValue) :=
  ("paths", JValue.obj P) :: ("components", JValue.obj [("schemas", JValue.obj S)]) :: rest

theorem specWithPaths_paths (P rest : List (String × JValue)) :
    asObj (jlookup (specWithPaths P rest) "paths") = some P := by
  simp [specWithPaths, jlookup, asObj]

theorem specWithSchemas_paths (P S rest : List (String × JValue)) :
    asObj (jlookup (specWithSchemas P S rest) "paths") = some P := by
  simp [specWithSchemas, jlookup, asObj]

theorem finishResult_perm {l l' : List Issue} (h : l.Perm l') :
    (finishResult l).status = (finishResult l').status
      ∧ (finishResult l).issues.Perm (finishResult l').issues := by
  constructor
  · rw [finishResult_status, finishResult_status, h.length_eq]
  · rw [finishResult_issues, finishResult_issues, h.length_eq]
    split
    · exact h
    · exact List.Perm.refl []

theorem solaceRestRules_paths_perm {P P' : List (String × JValue)}
    (rest : List (String × JValue)) (hP : P.Perm P') :
    (solaceRestRulesApply (some (specWithPaths P rest))).1.status
        = (solaceRestRulesApply (some (specWithPaths P' rest))).1.status
      ∧ (solaceRestRulesApply (some (specWithPaths P rest))).1.issues.Perm
          (solaceRestRulesApply (some (specWithPaths P' rest))).1.issues := by
  rw [solaceRestRulesApply_issues _ P (specWithPaths_paths P rest),
      solaceRestRulesApply_issues _ P' (specWithPaths_paths P' rest)]
  exact finishResult_perm (List.Perm.flatMap_right _ hP)

theorem solaceSingularUserResources_paths_perm {P P' : List (String × JValue)}
    (rest : List (String × JValue)) (hP : P.Perm P') :
    (solaceSingularUserResourcesApply (some (specWithPaths P rest))).1.status
        = (solaceSingularUserResourcesApply (some (specWithPaths P' rest))).1.status
      ∧ (solaceSingularUserResourcesApply (some (specWithPaths P rest))).1.issues.Perm
          (solaceSingularUserResourcesApply (some (specWithPaths P' rest))).1.issues := by
  rw [solaceSingularUserResourcesApply_issues _ P (specWithPaths_paths P rest),
      solaceSingularUserResourcesApply_issues _ P' (specWithPaths_paths P' rest)]
  exact finishResult_perm (List.Perm.flatMap_right _ hP)

theorem solaceCustomActions_paths_perm {P P' : List (String × JValue)}
    (rest : List (String × JValue)) (hP : P.Perm P') :
    (solaceCustomActionsApply (some (specWithPaths P rest))).1.status
        = (solaceCustomActionsApply (some (specWithPaths P' rest))).1.status
      ∧ (solaceCustomActionsApply (some (specWithPaths P rest))).1.issues.Perm
          (solaceCustomActionsApply (some (specWithPaths P' rest))).1.issues := by
  rw [solaceCustomActionsApply_issues _ P (specWithPaths_paths P rest),
      solaceCustomActionsApply_issues _ P' (specWithPaths_paths P' rest)]
  exact finishResult_perm (List.Perm.flatMap_right _ hP)

theorem schemaFieldIssues_paths_head (P P' rest : List (String × JValue)) (c : Condition) :
    schemaFieldIssues (specWithPaths P rest) c = schemaFieldIssues (specWithPaths P' rest) c := by
  unfold schemaFieldIssues specWithPaths
  rw [show jlookup (("paths", JValue.obj P) :: rest) "components" = jlookup rest "components"
        from by simp [jlookup],
      show jlookup (("paths", JValue.obj P') :: rest) "components" = jlookup rest "components"
        from by simp [jlookup],
      show jlookup (("paths", JValue.obj P) :: rest) "definitions" = jlookup rest "definitions"
        from by simp [jlookup],
      show jlookup (("paths", JValue.obj P') :: rest) "definitions" = jlookup rest "definitions"
        from by simp [jlookup]]

theorem condIssues_paths_perm (matchFn : Matcher) {P P' : List (String × JValue)}
    (rest : List (String × JValue)) (hP : P.Perm P') (nd : (P.map Prod.fst).Nodup)
    (c : Condition) :
    (condIssues matchFn (specWithPaths P rest) P c).Perm
      (condIssues matchFn (specWithPaths P' rest) P' c) := by
  by_cases h1 : c.type = "path_pattern"
  · rw [condIssues_path_pattern _ _ _ _ h1, condIssues_path_pattern _ _ _ _ h1]
    exact List.Perm.flatMap_right _ hP
  by_cases h2 : c.type = "method_check"
  · have heq : condIssues matchFn (specWithPaths P rest) P c
        = condIssues matchFn (specWithPaths P' rest) P' c := by
      unfold condIssues
      rw [if_neg h1, if_neg h1, if_pos h2, if_pos h2, jlookup_perm hP nd c.path]
    rw [heq]
  by_cases h3 : c.type = "parameter_check"
  · have heq : condIssues matchFn (specWithPaths P rest) P c
        = condIssues matchFn (specWithPaths P' rest) P' c := by
      unfold condIssues
      rw [if_neg h1, if_neg h1, if_neg h2, if_neg h2, if_pos h3, if_pos h3,
          jlookup_perm hP nd c.path]
    rw [heq]
  by_cases h4 : c.type = "resource_naming"
  · rw [condIssues_resource_naming _ _ _ _ h4, condIssues_resource_naming _ _ _ _ h4]
    exact List.Perm.flatMap_right _ hP
  by_cases h5 : c.type = "schema_field"
  · have heq : condIssues matchFn (specWithPaths P rest) P c
        = condIssues matchFn (specWithPaths P' rest) P' c := by
      unfold condIssues
      rw [if_neg h1, if_neg h1, if_neg h2, if_neg h2, if_neg h3, if_neg h3,
          if_neg h4, if_neg h4, if_pos h5, if_pos h5]
      exact schemaFieldIssues_paths_head P P' rest c
    rw [heq]
  · have heq : condIssues matchFn (specWithPaths P rest) P c
        = condIssues matchFn (specWithPaths P' rest) P' c := by
      unfold condIssues
      rw [if_neg h1, if_neg h1, if_neg h2, if_neg h2, if_neg h3, if_neg h3,
          if_neg h4, if_neg h4, if_neg h5, if_neg h5]
    rw [heq]

theorem jsonRuleApply_paths_perm (matchFn : Matcher) (r : JSONRule)
    {P P' : List (String × JValue)} (rest : List (String × JValue))
    (hP : P.Perm P') (nd : (P.map Prod.fst).Nodup) :
    (jsonRuleApply matchFn r (some (specWithPaths P rest))).1.status
        = (jsonRuleApply matchFn r (some (specWithPaths P' rest))).1.status
      ∧ (jsonRuleApply matchFn r (some (specWithPaths P rest))).1.issues.Perm
          (jsonRuleApply matchFn r (some (specWithPaths P' rest))).1.issues := by
  cases hr : r.enabled with
  | false =>
    simp only [jsonRuleApply, hr]
    exact ⟨rfl, List.Perm.refl _⟩
  | true =>
    rw [jsonRuleApply_issues matchFn r _ P hr (specWithPaths_paths P rest),
        jsonRuleApply_issues matchFn r _ P' hr (specWithPaths_paths P' rest)]
    exact finishResult_perm
      (flatMap_perm_of_forall fun c _ => condIssues_paths_perm matchFn rest hP nd c)

theorem applyRegisteredRule_paths_perm (matchFn : Matcher) (jsonRules : List JSONRule)
    {P P' : List (String × JValue)} (rest : List (String × JValue)) (n : String)
    (hP : P.Perm P') (nd : (P.map Prod.fst).Nodup) :
    (applyRegisteredRule (fullRegistry matchFn jsonRules)
        (some (specWithPaths P rest)) n).status
      = (applyRegisteredRule (fullRegistry matchFn jsonRules)
          (some (specWithPaths P' rest)) n).status
    ∧ (applyRegisteredRule (fullRegistry matchFn jsonRules)
        (some (specWithPaths P rest)) n).issues.Perm
        (applyRegisteredRule (fullRegistry matchFn jsonRules)
          (some (specWithPaths P' rest)) n).issues := by
  cases hlook : lookupRule (fullRegistry matchFn jsonRules) n with
  | none =>
    constructor
    · simp [applyRegisteredRule, hlook]
    · simp only [applyRegisteredRule, hlook]
      exact List.Perm.refl _
  | some f =>
    rw [applyRegisteredRule_registered matchFn jsonRules _ n f hlook,
        applyRegisteredRule_registered matchFn jsonRules _ n f hlook]
    have hmem : (n, f) ∈ fullRegistry matchFn jsonRules := lookupRule_mem hlook
    rcases List.mem_append.mp hmem with hb | hj
    · simp only [builtinRules, List.mem_cons, List.not_mem_nil] at hb
      rcases hb with h | h | h | h
      · rw [(Prod.mk.injEq _ _ _ _).mp h |>.2]
        exact solaceRestRules_paths_perm rest hP
      · rw [(Prod.mk.injEq _ _ _ _).mp h |>.2]
        exact solaceSingularUserResources_paths_perm rest hP
      · rw [(Prod.mk.injEq _ _ _ _).mp h |>.2]
        exact solaceCustomActions_paths_perm rest hP
      · exact absurd h (by simp)
    · rcases List.mem_map.mp hj with ⟨r, _, hr⟩
      rw [(Prod.mk.injEq _ _ _ _).mp hr |>.2.symm]
      exact jsonRuleApply_paths_perm matchFn r rest hP nd

/-- Whether one schemas entry satisfies a format-free schema_field
    condition: its value is a mapping whose properties mapping has the
    field. -/
def schemaHasField (field : String) (e : String × JValue) : Bool :=
  match asObj (some e.2) with
  | none => false
  | some schema =>
    match asObj (jlookup schema "properties") with
    | none => false
    | some properties => (jlookup properties field).isSome

theorem schemaFieldScan_empty_format (field msg : String) :
    ∀ S : List (String × JValue),
      schemaFieldScan field "" msg S = ([], S.any (schemaHasField field)) := by
  intro S
  induction S with
  | nil => rfl
  | cons e rest ih =>
    obtain ⟨name, v⟩ := e
    simp only [schemaFieldScan, List.any_cons]
    cases hv : asObj (some v) with
    | none => simp [schemaHasField, hv, ih]
    | some schema =>
      cases hprops : asObj (jlookup schema "properties") with
      | none => simp [schemaHasField, hv, hprops, ih]
      | some properties =>
        cases hf : jlookup properties field with
        | none => simp [schemaHasField, hv, hprops, hf, ih]
        | some fieldVal => simp [schemaHasField, hv, hprops, hf]

theorem schemaFieldIssues_specWithSchemas (P S rest : List (String × JValue))
    (c : Condition) :
    schemaFieldIssues (specWithSchemas P S rest) c
      = schemaFieldIssues.schemaFieldFinish c S := by
  unfold schemaFieldIssues specWithSchemas
  rw [show jlookup (("paths", JValue.obj P)
        :: ("components", JValue.obj [("schemas", JValue.obj S)]) :: rest) "components"
      = some (JValue.obj [("schemas", JValue.obj S)]) from by simp [jlookup]]
  simp [jlookup, asObj]

theorem condIssues_schemas_congr (matchFn : Matcher)
    (P : List (String × JValue)) {S S' : List (String × JValue)}
    (rest : List (String × JValue)) (hS : S.Perm S') (c : Condition)
    (hfmt : c.type = "schema_field" → c.format = "") :
    condIssues matchFn (specWithSchemas P S rest) P c
      = condIssues matchFn (specWithSchemas P S' rest) P c := by
  by_cases h5 : c.type = "schema_field"
  · have h1 : ¬ c.type = "path_pattern" := by rw [h5]; decide
    have h2 : ¬ c.type = "method_check" := by rw [h5]; decide
    have h3 : ¬ c.type = "parameter_check" := by rw [h5]; decide
    have h4 : ¬ c.type = "resource_naming" := by rw [h5]; decide
    unfold condIssues
    rw [if_neg h1, if_neg h1, if_neg h2, if_neg h2, if_neg h3, if_neg h3,
        if_neg h4, if_neg h4, if_pos h5, if_pos h5,
        schemaFieldIssues_specWithSchemas P S rest c,
        schemaFieldIssues_specWithSchemas P S' rest c]
    unfold schemaFieldIssues.schemaFieldFinish
    rw [hfmt h5, schemaFieldScan_empty_format, schemaFieldScan_empty_format,
        any_perm hS (schemaHasField c.field)]
  · unfold condIssues
    by_cases h1 : c.type = "path_pattern"
    · rw [if_pos h1, if_pos h1]
    by_cases h2 : c.type = "method_check"
    · rw [if_neg h1, if_neg h1, if_pos h2, if_pos h2]
    by_cases h3 : c.type = "parameter_check"
    · rw [if_neg h1, if_neg h1, if_neg h2, if_neg h2, if_pos h3, if_pos h3]
    by_cases h4 : c.type = "resource_naming"
    · rw [if_neg h1, if_neg h1, if_neg h2, if_neg h2, if_neg h3, if_neg h3,
          if_pos h4, if_pos h4]
    · rw [if_neg h1, if_neg h1, if_neg h2, if_neg h2, if_neg h3, if_neg h3,
          if_neg h4, if_neg h4, if_neg h5, if_neg h5]

theorem jsonRuleApply_schemas_congr (matchFn : Matcher) (r : JSONRule)
    (P : List (String × JValue)) {S S' : List (String × JValue)}
    (rest : List (String × JValue)) (hS : S.Perm S')
    (hfmt : ∀ c ∈ r.conditions, c.type = "schema_field" → c.format = "") :
    jsonRuleApply matchFn r (some (specWithSchemas P S rest))
      = jsonRuleApply matchFn r (some (specWithSchemas P S' rest)) := by
  cases hr : r.enabled with
  | false => simp [jsonRuleApply, hr]
  | true =>
    have h1 : (jsonRuleApply matchFn r (some (specWithSchemas P S rest))).1
        = (jsonRuleApply matchFn r (some (specWithSchemas P S' rest))).1 := by
      rw [jsonRuleApply_issues matchFn r _ P hr (specWithSchemas_paths P S rest),
          jsonRuleApply_issues matchFn r _ P hr (specWithSchemas_paths P S' rest)]
      exact congrArg finishResult
        (List.flatMap_congr fun c hc =>
          condIssues_schemas_congr matchFn P rest hS c (hfmt c hc))
    have h2 : (jsonRuleApply matchFn r (some (specWithSchemas P S rest))).2
        = (jsonRuleApply matchFn r (some (specWithSchemas P S' rest))).2 := by
      rw [jsonRuleApply_err, jsonRuleApply_err]
    exact Prod.ext_iff.mpr ⟨h1, h2⟩

theorem solaceRestRulesApply_tail_congr (P rest rest' : List (String × JValue)) :
    solaceRestRulesApply (some (("paths", JValue.obj P) :: rest))
      = solaceRestRulesApply (some (("paths", JValue.obj P) :: rest')) := by
  simp only [solaceRestRulesApply,
    show asObj (jlookup (("paths", JValue.obj P) :: rest) "paths") = some P from by
      simp [jlookup, asObj],
    show asObj (jlookup (("paths", JValue.obj P) :: rest') "paths") = some P from by
      simp [jlookup, asObj]]

theorem solaceSingularUserResourcesApply_tail_congr (P rest rest' : List (String × JValue)) :
    solaceSingularUserResourcesApply (some (("paths", JValue.obj P) :: rest))
      = solaceSingularUserResourcesApply (some (("paths", JValue.obj P) :: rest')) := by
  simp only [solaceSingularUserResourcesApply,
    show asObj (jlookup (("paths", JValue.obj P) :: rest) "paths") = some P from by
      simp [jlookup, asObj],
    show asObj (jlookup (("paths", JValue.obj P) :: rest') "paths") = some P from by
      simp [jlookup, asObj]]

theorem solaceCustomActionsApply_tail_congr (P rest rest' : List (String × JValue)) :
    solaceCustomActionsApply (some (("paths", JValue.obj P) :: rest))
      = solaceCustomActionsApply (some (("paths", JValue.obj P) :: rest')) := by
  simp only [solaceCustomActionsApply,
    show asObj (jlookup (("paths", JValue.obj P) :: rest) "paths") = some P from by
      simp [jlookup, asObj],
    show asObj (jlookup (("paths", JValue.obj P) :: rest') "paths") = some P from by
      simp [jlookup, asObj]]

theorem applyRegisteredRule_schemas_congr (matchFn : Matcher) (jsonRules : List JSONRule)
    (P : List (String × JValue)) {S S' : List (String × JValue)}
    (rest : List (String × JValue)) (n : String) (hS : S.Perm S')
    (hfmt : ∀ r ∈ jsonRules, ∀ c ∈ r.conditions, c.type = "schema_field" → c.format = "") :
    applyRegisteredRule (fullRegistry matchFn jsonRules)
        (some (specWithSchemas P S rest)) n
      = applyRegisteredRule (fullRegistry matchFn jsonRules)
          (some (specWithSchemas P S' rest)) n := by
  cases hlook : lookupRule (fullRegistry matchFn jsonRules) n with
  | none => simp [applyRegisteredRule, hlook]
  | some f =>
    rw [applyRegisteredRule_registered matchFn jsonRules _ n f hlook,
        applyRegisteredRule_registered matchFn jsonRules _ n f hlook]
    have hmem : (n, f) ∈ fullRegistry matchFn jsonRules := lookupRule_mem hlook
    rcases List.mem_append.mp hmem with hb | hj
    · simp only [builtinRules, List.mem_cons, List.not_mem_nil] at hb
      rcases hb with h | h | h | h
      · rw [(Prod.mk.injEq _ _ _ _).mp h |>.2]
        exact congrArg Prod.fst (solaceRestRulesApply_tail_congr P _ _)
      · rw [(Prod.mk.injEq _ _ _ _).mp h |>.2]
        exact congrArg Prod.fst (solaceSingularUserResourcesApply_tail_congr P _ _)
      · rw [(Prod.mk.injEq _ _ _ _).mp h |>.2]
        exact congrArg Prod.fst (solaceCustomActionsApply_tail_congr P _ _)
      · exact absurd h (by simp)
    · rcases List.mem_map.mp hj with ⟨r, hrmem, hr⟩
      rw [(Prod.mk.injEq _ _ _ _).mp hr |>.2.symm]
      exact congrArg Prod.fst (jsonRuleApply_schemas_congr matchFn r P rest hS (hfmt r hrmem))

/-- C8 (amended).  Validate is deterministic only up to the unspecified
    map iteration orders: reordering the paths mapping leaves every rule's
    key and status unchanged and permutes its issues, and reordering the
    schema mapping leaves the whole report unchanged provided no selected
    declarative rule carries a schema_field condition with a nonempty
    format; a schema_field condition with a format is genuinely
    order-sensitive. -/
theorem validate_deterministic_up_to_iteration_order :
    (∀ (matchFn : Matcher) (jsonRules : List JSONRule)
        (P P' rest : List (String × JValue)) (rulesParam : Option (List JValue)),
        P.Perm P' → (P.map Prod.fst).Nodup →
        List.Forall₂ (fun a b =>
            a.1 = b.1 ∧ a.2.status = b.2.status ∧ a.2.issues.Perm b.2.issues)
          (validateCore (fullRegistry matchFn jsonRules)
            (some (specWithPaths P rest)) rulesParam)
          (validateCore (fullRegistry matchFn jsonRules)
            (some (specWithPaths P' rest)) rulesParam))
    ∧ (∀ (matchFn : Matcher) (jsonRules : List JSONRule)
        (P S S' rest : List (String × JValue)) (rulesParam : Option (List JValue)),
        S.Perm S' →
        (∀ r ∈ jsonRules, ∀ c ∈ r.conditions, c.type = "schema_field" → c.format = "") →
        validateCore (fullRegistry matchFn jsonRules)
            (some (specWithSchemas P S rest)) rulesParam
          = validateCore (fullRegistry matchFn jsonRules)
              (some (specWithSchemas P S' rest)) rulesParam) := by
  constructor
  · intro matchFn jsonRules P P' rest rulesParam hP nd
    unfold validateCore
    rw [applyRules_eq_map, applyRules_eq_map]
    induction extractRulesToApply (fullRegistry matchFn jsonRules) rulesParam with
    | nil => exact List.Forall₂.nil
    | cons n ns ih =>
      exact List.Forall₂.cons
        ⟨rfl, applyRegisteredRule_paths_perm matchFn jsonRules rest n hP nd⟩ ih
  · intro matchFn jsonRules P S S' rest rulesParam hS hfmt
    unfold validateCore
    rw [applyRules_eq_map, applyRules_eq_map]
    exact List.map_congr_left fun n _ =>
      congrArg (Prod.mk n) (applyRegisteredRule_schemas_congr matchFn jsonRules P rest n hS hfmt)

/-- C8 witness: the paths part of the amended theorem on a concrete
    two-path spec in its two iteration orders. -/
theorem validate_deterministic_up_to_iteration_order_witness :
    List.Forall₂ (fun a b =>
        a.1 = b.1 ∧ a.2.status = b.2.status ∧ a.2.issues.Perm b.2.issues)
      (validateCore (fullRegistry (fun _ _ => false) [])
        (some (specWithPaths [("/u", JValue.obj []), ("/v", JValue.obj [])] []))
        (some [.str "solace_rest_rules"]))
      (validateCore (fullRegistry (fun _ _ => false) [])
        (some (specWithPaths [("/v", JValue.obj []), ("/u", JValue.obj [])] []))
        (some [.str "solace_rest_rules"])) :=
  validate_deterministic_up_to_iteration_order.1 (fun _ _ => false) []
    [("/u", JValue.obj []), ("/v", JValue.obj [])]
    [("/v", JValue.obj []), ("/u", JValue.obj [])] [] (some [.str "solace_rest_rules"])
    (List.Perm.swap ("/v", JValue.obj []) ("/u", JValue.obj []) []) (by decide)

/-- The schemas mapping listed with the date-time-formatted schema first. -/
def schemaEntryA : String × JValue :=
  ("A", JValue.obj [("properties", JValue.obj
    [("createdTime", JValue.obj [("format", JValue.str "date-time")])])])

/-- The schemas entry whose createdTime format is int64. -/
def schemaEntryB : String × JValue :=
  ("B", JValue.obj [("properties", JValue.obj
    [("createdTime", JValue.obj [("format", JValue.str "int64")])])])

/-- C8 counterexample to the original claim: the same parsed spec map —
    the two specs differ only in the listing order of the schemas mapping,
    a permutation — run with the identical one-rule subset yields Reports
    with the same single rule-name key but different statuses (passed
    versus failed), so the Report content differs beyond rule-name key
    ordering. -/
theorem validate_iteration_order_counterexample :
    [schemaEntryA, schemaEntryB].Perm [schemaEntryB, schemaEntryA]
    ∧ validateCore (fullRegistry (fun _ _ => false) [auditRule])
        (some (specWithSchemas [] [schemaEntryA, schemaEntryB] []))
        (some [.str "audit_fields"])
      = [("audit_fields", { status := "passed" })]
    ∧ validateCore (fullRegistry (fun _ _ => false) [auditRule])
        (some (specWithSchemas [] [schemaEntryB, schemaEntryA] []))
        (some [.str "audit_fields"])
      = [("audit_fields",
          { status := "failed",
            issues := [{ schema := some "B", field := some "createdTime",
                         message := "createdTime field required (format should be date-time)" }] })] :=
  ⟨List.Perm.swap schemaEntryB schemaEntryA [], by decide, by decide⟩

end RestV2
